import Mathlib

/-!
Verification of the knowledge-hub-factory content engine
(content-engine/generator.py) against its natural-language
specification.

Python strings are modelled as lists of characters (`Str`); the Python
primitives used by the generator (str.replace for a non-empty pattern,
str.lower, str.title, slicing) are given executable Lean counterparts
restricted to the ASCII fragment the program manipulates.  The CSV
ledger files are modelled by an explicit file-state type, and the main
batch driver by a function of the run mode, the sampled batch (with a
per-record success flag standing for the try/except outcome of
assemble + emit) and the file state.
-/

set_option autoImplicit false

/-- A Python string, modelled as its list of characters. -/
abbrev Str : Type := List Char

/-- Fuel-indexed worker for Python str.replace: scan left to right,
replacing each non-overlapping occurrence of pat by rep.  The fuel is
only there to make the recursion structural; `pyReplaceGo_congr` shows
any fuel at least the length of the string gives the same answer. -/
def pyReplaceGo (pat rep : Str) : Nat → Str → Str
  | 0, s => s
  | _ + 1, [] => []
  | fuel + 1, c :: rest =>
    if pat ≠ [] ∧ pat.isPrefixOf (c :: rest) then
      rep ++ pyReplaceGo pat rep fuel ((c :: rest).drop pat.length)
    else
      c :: pyReplaceGo pat rep fuel rest

/-- Python str.replace for a non-empty pattern (generator.py only ever
calls replace with a non-empty pattern). -/
def pyReplace (s pat rep : Str) : Str := pyReplaceGo pat rep s.length s

/-- Python str.lower, per character (ASCII model, matching the basic
latin titles the generator handles). -/
def pyLower (s : Str) : Str := s.map Char.toLower

/-- Slug derivation, from generator.py line 190:
title.lower().replace(' ', '-').replace(':', '').replace('/', '')
.replace('.', '').replace(',', '')[:60]. -/
def slugOf (title : Str) : Str :=
  List.take 60
    (pyReplace
      (pyReplace
        (pyReplace
          (pyReplace
            (pyReplace (pyLower title) [' '] ['-'])
            [':'] [])
          ['/'] [])
        ['.'] [])
      [','] [])

/-- A keyword record: one row of the pending/processed tables
(columns keyword,title).  Identity is exact field-pair equality. -/
structure KeywordRecord where
  keyword : String
  title : String
deriving DecidableEq, Repr

/-- State of one of the CSV ledger files: absent, present with its
parsed data rows (a file holding only the header parses to an empty
row list), or existing but unreadable (the except branch of
update_keywords_csv). -/
inductive TFile where
  | absent
  | present (rows : List KeywordRecord)
  | corrupt
deriving DecidableEq, Repr

/-- The data rows recoverable from a ledger file: an absent file and an
unreadable one both read back as no rows (generator.py lines 79-87). -/
def TFile.rows : TFile → List KeywordRecord
  | .absent => []
  | .present rs => rs
  | .corrupt => []

/-- The two ledger files the run touches. -/
structure FS where
  pending : TFile
  processed : TFile
deriving DecidableEq, Repr

/-- Pending-file part of update_keywords_csv (lines 69-77): a non-empty
remaining list overwrites the file; an empty one removes the file if it
exists, so the file ends absent either way. -/
def updatePendingFile (remaining : List KeywordRecord) : TFile :=
  if remaining.isEmpty then TFile.absent else TFile.present remaining

/-- update_keywords_csv (generator.py lines 66-98): rewrite or delete
the pending table from the remaining records, then append the newly
processed records to the previously processed rows and write the
combined list back, writing nothing when the combined list is empty. -/
def update_keywords_csv (remaining processed : List KeywordRecord) (fs : FS) : FS :=
  let previous := fs.processed.rows
  let allProcessed := previous ++ processed
  { pending := updatePendingFile remaining,
    processed := if allProcessed.isEmpty then fs.processed else TFile.present allProcessed }

/-- The SYSTEM_MODE environment flag. -/
inductive SystemMode where
  | test
  | live
deriving DecidableEq, Repr

/-- Result of the per-record loop of the driver (lines 258-281):
the records appended to processed_batch_data, the records whose
document file was written, and processed_count (which also counts the
sleep calls, one per successful LIVE record). -/
structure LoopOut where
  processedBatch : List KeywordRecord
  emitted : List KeywordRecord
  processedCount : Nat
deriving DecidableEq, Repr

/-- The driver loop over the sampled batch (generator.py lines
261-281).  Each batch entry carries a Bool oracle: the outcome of the
try block (generate_post_content + generate_markdown_file) for that
record in LIVE mode; TEST mode ignores it and just marks the record
processed. -/
def processLoop (mode : SystemMode) : List (KeywordRecord × Bool) → LoopOut
  | [] => ⟨[], [], 0⟩
  | (d, ok) :: rest =>
    let out := processLoop mode rest
    match mode with
    | .test => ⟨d :: out.processedBatch, out.emitted, out.processedCount⟩
    | .live =>
      if ok then ⟨d :: out.processedBatch, d :: out.emitted, out.processedCount + 1⟩
      else out

/-- Result of one whole run. -/
structure RunOut where
  processedBatch : List KeywordRecord
  emitted : List KeywordRecord
  delays : Nat
  remaining : List KeywordRecord
  snapshot : Bool
  fs : FS
deriving DecidableEq, Repr

/-- The main block of generator.py (lines 244-292): exit early when no
pending keywords; run the loop over the sampled batch; partition
all_keywords by membership in processed_batch_data; call
update_keywords_csv unconditionally; trigger the git snapshot exactly
when processed_count > 0 and the mode is LIVE. -/
def runMain (mode : SystemMode) (allKeywords : List KeywordRecord)
    (batch : List (KeywordRecord × Bool)) (fs : FS) : Option RunOut :=
  if allKeywords.isEmpty then none
  else
    let out := processLoop mode batch
    let remaining := allKeywords.filter (fun k => decide (k ∉ out.processedBatch))
    some { processedBatch := out.processedBatch,
           emitted := out.emitted,
           delays := out.processedCount,
           remaining := remaining,
           snapshot := decide (0 < out.processedCount) && decide (mode = SystemMode.live),
           fs := update_keywords_csv remaining out.processedBatch fs }

/-- Fixed sample records and file states used by the concrete
witnesses and counterexamples below. -/
def rA : KeywordRecord := ⟨"ai tools", "Best AI Tools"⟩

def rB : KeywordRecord := ⟨"home office", "Home Office Setup"⟩

def rC : KeywordRecord := ⟨"crypto", "Crypto Basics"⟩

def fsAB : FS := ⟨TFile.present [rA, rB], TFile.absent⟩

def fsA : FS := ⟨TFile.present [rA], TFile.absent⟩

def fsAA : FS := ⟨TFile.present [rA, rA], TFile.absent⟩

/-- One row as yielded by csv.DictReader: either column may be missing
from the row mapping. -/
structure CsvRow where
  keyword : Option String
  title : Option String
deriving DecidableEq, Repr

/-- State of the pending table on disk: absent, or a file of the given
byte size whose data rows parse as given (a size of 0 is an empty
file; a header-only file has positive size and no data rows). -/
inductive PendingSrc where
  | absent
  | file (size : Nat) (rows : List CsvRow)
deriving DecidableEq, Repr

/-- The keyword-in-row and title-in-row test of load_keywords line 62:
a row is kept only when both columns are present. -/
def rowToRecord (row : CsvRow) : Option KeywordRecord :=
  match row.keyword, row.title with
  | some k, some t => some ⟨k, t⟩
  | _, _ => none

/-- load_keywords (generator.py lines 53-64): empty result when the
file is absent or has size 0; otherwise the rows that carry both
columns, in order. -/
def load_keywords : PendingSrc → List KeywordRecord
  | .absent => []
  | .file 0 _ => []
  | .file (_ + 1) rows => rows.filterMap rowToRecord

/-- The placeholder token generator.py substitutes in cta fragments. -/
def ctaLinkToken : Str := "[CTA_LINK]".toList

/-- The placeholder fragment load_blocks installs for a missing block
file (generator.py line 50). -/
def placeholderBlock : Str := "[Placeholder block content - please fill this file]".toList

/-- The generic fallback phrase (generator.py line 148). -/
def ctaFallback : Str := "Visit a highly recommended resource here.".toList

/-- The synthetic offer identifier (generator.py line 106). -/
def mkAffiliateKey (n : Nat) : Str := ("OFFER_" ++ toString n).toList

/-- The affiliate-link shortcode directive (generator.py line 146). -/
def ctaDirective (key : Str) : Str :=
  "\x7b\x7b< affiliate_link key=\"".toList ++ key
    ++ "\" text=\"Click Here to Start\" >\x7d\x7d".toList

/-- The cta text after [CTA_LINK] substitution (generator.py lines
144-148): the directive when an affiliate key was drawn, the generic
fallback phrase otherwise. -/
def ctaText (fragment : Str) (affiliateKey : Option Str) : Str :=
  match affiliateKey with
  | some key => pyReplace fragment ctaLinkToken (ctaDirective key)
  | none => pyReplace fragment ctaLinkToken ctaFallback

/-- Substring test (Python's in operator on strings). -/
def containsStrB (pat : Str) : Str → Bool
  | [] => pat.isEmpty
  | c :: rest => pat.isPrefixOf (c :: rest) || containsStrB pat rest

/-- The {keyword} placeholder substituted into fragments. -/
def kwToken : Str := "\x7bkeyword\x7d".toList

/-- Worker for Python str.title: the first character of each run of
letters is uppercased, the rest lowercased; the flag records whether
the previous character was a letter (ASCII model). -/
def pyTitleAux : Bool → Str → Str
  | _, [] => []
  | prevAlpha, c :: rest =>
    (if c.isAlpha then (if prevAlpha then Char.toLower c else Char.toUpper c) else c)
      :: pyTitleAux c.isAlpha rest

/-- Python str.title (ASCII model). -/
def pyTitle (s : Str) : Str := pyTitleAux false s

/-- The fixed topic labels, generator.py line 26. -/
def H2_SECTIONS : List Str :=
  ["Benefits-and-Advantages".toList, "Key-Challenges".toList,
   "Practical-Steps-to-Implement".toList, "Expert-Tips-and-Insights".toList]

/-- The if-chain of generator.py lines 123-134 choosing a block
category by substring tests on the topic label; the empty string is
the untouched default. -/
def sectionBlockKey (h2 : Str) : String :=
  if containsStrB ("Benefits".toList) h2 then "pros"
  else if containsStrB ("Challenges".toList) h2 then "cons"
  else if containsStrB ("Steps".toList) h2 then "steps"
  else if containsStrB ("Tips".toList) h2 then "tips"
  else ""

/-- One body section (generator.py lines 119-138): the fragment chosen
from the selected category (empty when no category matched), rendered
under the heading obtained from the label by hyphens-to-spaces and
str.title, with {keyword} substituted into the fragment. -/
def bodySection (keyword : Str) (pickBody : String → Str) (h2 : Str) : Str :=
  let key := sectionBlockKey h2
  let content := if key = "" then [] else pickBody key
  "## ".toList ++ pyTitle (pyReplace h2 ['-'] [' ']) ++ "\n\n".toList
    ++ pyReplace content kwToken keyword

/-- All body sections of a document, in selection order. -/
def bodySections (keyword : Str) (pickBody : String → Str) (selectedH2 : List Str) :
    List Str :=
  selectedH2.map (bodySection keyword pickBody)

/-- Modelled from the spec: the fixed topic-to-category mapping the
specification states (benefits to pros, challenges to cons, steps to
steps, tips to tips), to be compared with the source's substring
if-chain. -/
def specTopicCategory (h2 : Str) : String :=
  if h2 = "Benefits-and-Advantages".toList then "pros"
  else if h2 = "Key-Challenges".toList then "cons"
  else if h2 = "Practical-Steps-to-Implement".toList then "steps"
  else if h2 = "Expert-Tips-and-Insights".toList then "tips"
  else ""

/-- Modelled from the spec: the human-readable heading of each topic
label, obtained by replacing hyphens with spaces and title-casing. -/
def specTopicHeading (h2 : Str) : Str :=
  if h2 = "Benefits-and-Advantages".toList then "Benefits And Advantages".toList
  else if h2 = "Key-Challenges".toList then "Key Challenges".toList
  else if h2 = "Practical-Steps-to-Implement".toList then "Practical Steps To Implement".toList
  else if h2 = "Expert-Tips-and-Insights".toList then "Expert Tips And Insights".toList
  else []

/-- Block table and fragment chooser for the C9 witness. -/
def wBlocks : String → List Str := fun _ => ["the x of \x7bkeyword\x7d".toList]

def wPick : String → Str := fun _ => "the x of \x7bkeyword\x7d".toList

/-- The full call-to-action section (generator.py lines 142 and 150):
the fixed conclusion heading followed by the substituted cta text with
{keyword} replaced. -/
def ctaSection (fragment : Str) (affiliateKey : Option Str) (keyword : Str) : Str :=
  "## Conclusion: Final Thoughts and Next Steps\n\n".toList
    ++ pyReplace (ctaText fragment affiliateKey) kwToken keyword

theorem pyReplaceGo_congr (pat rep : Str) :
    ∀ (f₁ f₂ : Nat) (s : Str), s.length ≤ f₁ → s.length ≤ f₂ →
      pyReplaceGo pat rep f₁ s = pyReplaceGo pat rep f₂ s := by
  intro f₁
  induction f₁ with
  | zero =>
    intro f₂ s hs₁ _
    have : s = [] := List.eq_nil_of_length_eq_zero (Nat.le_zero.mp hs₁)
    subst this
    cases f₂ <;> rfl
  | succ f₁ ih =>
    intro f₂ s hs₁ hs₂
    cases s with
    | nil => cases f₂ <;> rfl
    | cons c rest =>
      cases f₂ with
      | zero => simp at hs₂
      | succ f₂ =>
        simp only [pyReplaceGo]
        split
        case isTrue h =>
          have hp : 0 < pat.length := List.length_pos.mpr h.1
          have hlen : ((c :: rest).drop pat.length).length ≤ rest.length := by
            simp only [List.length_drop, List.length_cons]
            omega
          simp only [List.length_cons] at hs₁ hs₂
          rw [ih f₂ _ (by omega) (by omega)]
        case isFalse h =>
          simp only [List.length_cons] at hs₁ hs₂
          rw [ih f₂ rest (by omega) (by omega)]

theorem pyReplace_nil (pat rep : Str) : pyReplace [] pat rep = [] := rfl

theorem pyReplace_cons (c : Char) (rest pat rep : Str) :
    pyReplace (c :: rest) pat rep =
      if pat ≠ [] ∧ pat.isPrefixOf (c :: rest) then
        rep ++ pyReplace ((c :: rest).drop pat.length) pat rep
      else
        c :: pyReplace rest pat rep := by
  show pyReplaceGo pat rep ((c :: rest).length) (c :: rest) = _
  simp only [List.length_cons, pyReplaceGo]
  split
  case isTrue h =>
    have hp : 0 < pat.length := List.length_pos.mpr h.1
    congr 1
    apply pyReplaceGo_congr
    · simp only [List.length_drop, List.length_cons]
      omega
    · exact Nat.le_refl _
  case isFalse h => rfl

theorem charToNat_ofNat {n : Nat} (h : n.isValidChar) : (Char.ofNat n).toNat = n := by
  simp only [Char.ofNat, dif_pos h, Char.ofNatAux, Char.toNat]
  simp [UInt32.toNat]

theorem toLower_toNat_not_upper (c : Char) :
    ¬ (65 ≤ (Char.toLower c).toNat ∧ (Char.toLower c).toNat ≤ 90) := by
  simp only [Char.toLower]
  by_cases h : c.toNat ≥ 65 ∧ c.toNat ≤ 90
  · rw [if_pos h]
    have hv : (c.toNat + 32).isValidChar := Or.inl (by omega)
    rw [charToNat_ofNat hv]
    omega
  · rw [if_neg h]
    exact h

theorem toLower_idem (c : Char) : Char.toLower (Char.toLower c) = Char.toLower c := by
  have h := toLower_toNat_not_upper c
  conv_lhs => rw [Char.toLower]
  rw [if_neg h]

theorem pyReplace_map (a b : Char) :
    ∀ s : Str, pyReplace s [a] [b] = s.map (fun c => if c = a then b else c)
  | [] => rfl
  | c :: rest => by
    rw [pyReplace_cons]
    by_cases hca : a = c
    · subst hca
      rw [if_pos ⟨by simp, by simp [List.isPrefixOf]⟩]
      simp only [List.length_cons, List.length_nil, Nat.zero_add, List.drop_succ_cons,
        List.drop_zero, List.map_cons, List.singleton_append]
      rw [pyReplace_map a b rest]
      simp
    · rw [if_neg (fun h => hca (by simpa [List.isPrefixOf] using h.2))]
      simp only [List.map_cons]
      rw [if_neg (fun h => hca h.symm), pyReplace_map a b rest]

theorem pyReplace_del (a : Char) :
    ∀ s : Str, pyReplace s [a] [] = s.filter (fun c => decide (c ≠ a))
  | [] => rfl
  | c :: rest => by
    rw [pyReplace_cons]
    by_cases hca : a = c
    · subst hca
      rw [if_pos ⟨by simp, by simp [List.isPrefixOf]⟩]
      simp only [List.length_cons, List.length_nil, Nat.zero_add, List.drop_succ_cons,
        List.drop_zero, List.nil_append]
      rw [pyReplace_del a rest]
      simp [List.filter_cons]
    · rw [if_neg (fun h => hca (by simpa [List.isPrefixOf] using h.2))]
      rw [pyReplace_del a rest]
      have hne : ¬ c = a := fun h => hca h.symm
      simp [List.filter_cons, hne]

theorem map_eq_self_of_mem {f : Char → Char} :
    ∀ {l : Str}, (∀ c ∈ l, f c = c) → l.map f = l
  | [], _ => rfl
  | c :: rest, h => by
    simp only [List.map_cons, h c (List.Mem.head rest)]
    rw [map_eq_self_of_mem (fun x hx => h x (List.Mem.tail c hx))]

theorem mem_slugOf {t : Str} {c : Char} (hc : c ∈ slugOf t) :
    Char.toLower c = c ∧ c ≠ ' ' ∧ c ≠ ':' ∧ c ≠ '/' ∧ c ≠ '.' ∧ c ≠ ',' := by
  unfold slugOf at hc
  have h1 := List.mem_of_mem_take hc
  rw [pyReplace_del, pyReplace_del, pyReplace_del, pyReplace_del, pyReplace_map] at h1
  rw [List.mem_filter] at h1
  obtain ⟨h1, hcomma⟩ := h1
  rw [List.mem_filter] at h1
  obtain ⟨h1, hdot⟩ := h1
  rw [List.mem_filter] at h1
  obtain ⟨h1, hslash⟩ := h1
  rw [List.mem_filter] at h1
  obtain ⟨h1, hcolon⟩ := h1
  rw [List.mem_map] at h1
  obtain ⟨x, hx, hgx⟩ := h1
  unfold pyLower at hx
  rw [List.mem_map] at hx
  obtain ⟨a, _, hax⟩ := hx
  refine ⟨?_, ?_, by simpa using hcolon, by simpa using hslash, by simpa using hdot,
    by simpa using hcomma⟩
  · by_cases hsp : x = ' '
    · rw [if_pos hsp] at hgx
      rw [← hgx]
      decide
    · rw [if_neg hsp] at hgx
      rw [← hgx, ← hax]
      exact toLower_idem a
  · by_cases hsp : x = ' '
    · rw [if_pos hsp] at hgx
      rw [← hgx]
      decide
    · rw [if_neg hsp] at hgx
      rw [← hgx]
      exact hsp

theorem slugOf_length_le (t : Str) : (slugOf t).length ≤ 60 := by
  unfold slugOf
  exact List.length_take_le 60 _

theorem slugOf_lower (t : Str) : pyLower (slugOf t) = slugOf t :=
  map_eq_self_of_mem (fun c hc => (mem_slugOf hc).1)

theorem slugOf_idem (t : Str) : slugOf (slugOf t) = slugOf t := by
  have hmem := fun c (hc : c ∈ slugOf t) => mem_slugOf hc
  have h1 : pyReplace (slugOf t) [' '] ['-'] = slugOf t := by
    rw [pyReplace_map]
    exact map_eq_self_of_mem (fun c hc => if_neg (hmem c hc).2.1)
  have h2 : pyReplace (slugOf t) [':'] [] = slugOf t := by
    rw [pyReplace_del]
    exact List.filter_eq_self.mpr (fun c hc => by simp [(hmem c hc).2.2.1])
  have h3 : pyReplace (slugOf t) ['/'] [] = slugOf t := by
    rw [pyReplace_del]
    exact List.filter_eq_self.mpr (fun c hc => by simp [(hmem c hc).2.2.2.1])
  have h4 : pyReplace (slugOf t) ['.'] [] = slugOf t := by
    rw [pyReplace_del]
    exact List.filter_eq_self.mpr (fun c hc => by simp [(hmem c hc).2.2.2.2.1])
  have h5 : pyReplace (slugOf t) [','] [] = slugOf t := by
    rw [pyReplace_del]
    exact List.filter_eq_self.mpr (fun c hc => by simp [(hmem c hc).2.2.2.2.2])
  conv_lhs => rw [slugOf]
  rw [show pyLower (slugOf t) = slugOf t from slugOf_lower t]
  rw [h1, h2, h3, h4, h5]
  exact List.take_of_length_le (slugOf_length_le t)

/-- C6: for every title, the derived slug has length at most 60, equals
its own lowercase form, contains none of the characters colon, slash,
dot, comma, and slug derivation is idempotent. -/
theorem claim_C6 (title : Str) :
    (slugOf title).length ≤ 60 ∧
    pyLower (slugOf title) = slugOf title ∧
    (∀ c ∈ slugOf title, c ≠ ':' ∧ c ≠ '/' ∧ c ≠ '.' ∧ c ≠ ',') ∧
    slugOf (slugOf title) = slugOf title :=
  ⟨slugOf_length_le title, slugOf_lower title,
    fun c hc => ((mem_slugOf hc).2.2 : _),
    slugOf_idem title⟩

/-- Witness for C6 at the concrete title "My Title: A/B. Test, Now",
whose slug is "my-title-ab-test-now". -/
theorem claim_C6_witness :
    slugOf ("My Title: A/B. Test, Now".toList) = "my-title-ab-test-now".toList ∧
    ('m' ≠ ':' ∧ 'm' ≠ '/' ∧ 'm' ≠ '.' ∧ 'm' ≠ ',') ∧
    slugOf (slugOf ("My Title: A/B. Test, Now".toList)) =
      slugOf ("My Title: A/B. Test, Now".toList) :=
  ⟨by decide,
    (claim_C6 ("My Title: A/B. Test, Now".toList)).2.2.1 'm' (by decide),
    (claim_C6 ("My Title: A/B. Test, Now".toList)).2.2.2⟩

theorem runMain_eq_some {mode : SystemMode} {allKeywords : List KeywordRecord}
    {batch : List (KeywordRecord × Bool)} {fs : FS} {res : RunOut}
    (hrun : runMain mode allKeywords batch fs = some res) :
    res.processedBatch = (processLoop mode batch).processedBatch ∧
    res.emitted = (processLoop mode batch).emitted ∧
    res.delays = (processLoop mode batch).processedCount ∧
    res.remaining =
      allKeywords.filter (fun k => decide (k ∉ (processLoop mode batch).processedBatch)) ∧
    res.snapshot =
      (decide (0 < (processLoop mode batch).processedCount) &&
        decide (mode = SystemMode.live)) ∧
    res.fs = update_keywords_csv
      (allKeywords.filter (fun k => decide (k ∉ (processLoop mode batch).processedBatch)))
      (processLoop mode batch).processedBatch fs := by
  unfold runMain at hrun
  split at hrun
  · exact absurd hrun (by simp)
  · obtain rfl := (Option.some.inj hrun).symm
    exact ⟨rfl, rfl, rfl, rfl, rfl, rfl⟩

theorem processLoop_test (batch : List (KeywordRecord × Bool)) :
    processLoop SystemMode.test batch = ⟨batch.map Prod.fst, [], 0⟩ := by
  induction batch with
  | nil => rfl
  | cons p rest ih =>
    obtain ⟨d, ok⟩ := p
    simp [processLoop, ih]

theorem processLoop_fst_sublist (mode : SystemMode) :
    ∀ batch : List (KeywordRecord × Bool),
      List.Sublist (processLoop mode batch).processedBatch (batch.map Prod.fst)
  | [] => by cases mode <;> exact List.Sublist.refl []
  | (d, ok) :: rest => by
    have ih := processLoop_fst_sublist mode rest
    cases mode with
    | test => exact ih.cons₂ d
    | live =>
      simp only [processLoop, List.map_cons]
      by_cases hok : ok = true
      · rw [hok]
        exact ih.cons₂ d
      · rw [Bool.eq_false_iff.mpr hok]
        simp only [Bool.false_eq_true, if_false]
        exact ih.cons d

/-- C1: for every non-empty pending keyword list, after one run the
per-run processed set and the remaining set are disjoint and their
union, as sets under value equality, equals the original pending set:
every originally-pending record lands in exactly one of the two. -/
theorem claim_C1 (mode : SystemMode) (allKeywords : List KeywordRecord)
    (batch : List (KeywordRecord × Bool)) (fs : FS) (res : RunOut)
    (hne : allKeywords ≠ [])
    (hsub : List.Subperm (batch.map Prod.fst) allKeywords)
    (hrun : runMain mode allKeywords batch fs = some res) :
    (∀ x, x ∈ allKeywords ↔ (x ∈ res.remaining ∨ x ∈ res.processedBatch)) ∧
    (∀ x, ¬ (x ∈ res.remaining ∧ x ∈ res.processedBatch)) := by
  obtain ⟨hpb, -, -, hrem, -, -⟩ := runMain_eq_some hrun
  have hpb_sub : ∀ x ∈ res.processedBatch, x ∈ allKeywords := by
    intro x hx
    rw [hpb] at hx
    exact hsub.subset ((processLoop_fst_sublist mode batch).subset hx)
  constructor
  · intro x
    constructor
    · intro hx
      by_cases hxp : x ∈ res.processedBatch
      · exact Or.inr hxp
      · refine Or.inl ?_
        rw [hrem, List.mem_filter]
        rw [hpb] at hxp
        exact ⟨hx, by simpa using hxp⟩
    · rintro (hr | hp)
      · rw [hrem] at hr
        exact (List.mem_filter.mp hr).1
      · exact hpb_sub x hp
  · intro x ⟨hr, hp⟩
    rw [hrem] at hr
    have := (List.mem_filter.mp hr).2
    rw [hpb] at hp
    simp at this
    exact this hp

/-- Witness for C1: a concrete LIVE run over pending [rA, rB] with
batch [rA] succeeding. -/
theorem claim_C1_witness :
    (rA ∈ [rA, rB] ↔
      (rA ∈ (RunOut.mk [rA] [rA] 1 [rB] true ⟨TFile.present [rB], TFile.present [rA]⟩).remaining ∨
       rA ∈ (RunOut.mk [rA] [rA] 1 [rB] true ⟨TFile.present [rB], TFile.present [rA]⟩).processedBatch)) ∧
    ¬ (rA ∈ (RunOut.mk [rA] [rA] 1 [rB] true ⟨TFile.present [rB], TFile.present [rA]⟩).remaining ∧
       rA ∈ (RunOut.mk [rA] [rA] 1 [rB] true ⟨TFile.present [rB], TFile.present [rA]⟩).processedBatch) := by
  have h := claim_C1 SystemMode.live [rA, rB] [(rA, true)] fsAB
    (RunOut.mk [rA] [rA] 1 [rB] true ⟨TFile.present [rB], TFile.present [rA]⟩)
    (by decide) (by decide) (by decide)
  exact ⟨h.1 rA, h.2 rA⟩

/-- Counterexample to C2 as stated: a TEST run over the single pending
record rA rewrites both ledger files (the pending table is deleted and
the processed table is created holding rA), because generator.py calls
update_keywords_csv unconditionally at line 285; only the document
write, the delay and the git snapshot are skipped. -/
theorem claim_C2_counterexample :
    (runMain SystemMode.test [rA] [(rA, true)] fsA).map (fun res => res.fs.pending)
        = some TFile.absent ∧
    (runMain SystemMode.test [rA] [(rA, true)] fsA).map (fun res => res.fs.processed)
        = some (TFile.present [rA]) ∧
    fsA.pending = TFile.present [rA] ∧
    fsA.processed = TFile.absent ∧
    TFile.absent ≠ TFile.present [rA] := by
  decide

/-- C2 amended: in a TEST run over a non-empty pending list no document
is assembled or written, every selected record is marked processed, and
the delay and the external snapshot are skipped, but the ledger commit
is NOT skipped: update_keywords_csv still runs, so the pending and
processed tables are rewritten exactly as for a LIVE run with the same
processed set. -/
theorem claim_C2_amended (allKeywords : List KeywordRecord)
    (batch : List (KeywordRecord × Bool)) (fs : FS) (res : RunOut)
    (hne : allKeywords ≠ [])
    (hrun : runMain SystemMode.test allKeywords batch fs = some res) :
    res.emitted = [] ∧
    res.processedBatch = batch.map Prod.fst ∧
    res.delays = 0 ∧
    res.snapshot = false ∧
    res.remaining = allKeywords.filter (fun k => decide (k ∉ batch.map Prod.fst)) ∧
    res.fs = update_keywords_csv res.remaining (batch.map Prod.fst) fs := by
  obtain ⟨hpb, hem, hdel, hrem, hsnap, hfs⟩ := runMain_eq_some hrun
  rw [processLoop_test] at hpb hem hdel hrem hsnap hfs
  refine ⟨hem, hpb, hdel, by rw [hsnap]; rfl, hrem, ?_⟩
  rw [hfs, hrem]

/-- Witness for the amended C2: a concrete TEST run over pending
[rA, rB] with batch [rB]. -/
theorem claim_C2_amended_witness :
    (RunOut.mk [rB] [] 0 [rA] false ⟨TFile.present [rA], TFile.present [rB]⟩).emitted = [] ∧
    (RunOut.mk [rB] [] 0 [rA] false ⟨TFile.present [rA], TFile.present [rB]⟩).processedBatch
      = [(rB, true)].map Prod.fst ∧
    (RunOut.mk [rB] [] 0 [rA] false ⟨TFile.present [rA], TFile.present [rB]⟩).delays = 0 ∧
    (RunOut.mk [rB] [] 0 [rA] false ⟨TFile.present [rA], TFile.present [rB]⟩).snapshot = false ∧
    (RunOut.mk [rB] [] 0 [rA] false ⟨TFile.present [rA], TFile.present [rB]⟩).remaining
      = [rA, rB].filter (fun k => decide (k ∉ [(rB, true)].map Prod.fst)) ∧
    (RunOut.mk [rB] [] 0 [rA] false ⟨TFile.present [rA], TFile.present [rB]⟩).fs
      = update_keywords_csv
          (RunOut.mk [rB] [] 0 [rA] false ⟨TFile.present [rA], TFile.present [rB]⟩).remaining
          ([(rB, true)].map Prod.fst) fsAB :=
  claim_C2_amended [rA, rB] [(rB, true)] fsAB
    (RunOut.mk [rB] [] 0 [rA] false ⟨TFile.present [rA], TFile.present [rB]⟩)
    (by decide) (by decide)

/-- C7: the ledger commit overwrites the pending table with the
remaining records when remaining is non-empty, deletes the pending
table file entirely when remaining is empty, and leaves the processed
table holding all previously recoverable processed rows followed by
the newly processed ones. -/
theorem claim_C7 (remaining processed : List KeywordRecord) (fs : FS)
    (hread : fs.processed ≠ TFile.corrupt) :
    (remaining ≠ [] →
      (update_keywords_csv remaining processed fs).pending = TFile.present remaining) ∧
    (remaining = [] →
      (update_keywords_csv remaining processed fs).pending = TFile.absent) ∧
    (update_keywords_csv remaining processed fs).processed.rows
      = fs.processed.rows ++ processed := by
  refine ⟨?_, ?_, ?_⟩
  · intro h
    simp [update_keywords_csv, updatePendingFile, h]
  · intro h
    simp [update_keywords_csv, updatePendingFile, h]
  · show (if (fs.processed.rows ++ processed).isEmpty then fs.processed
      else TFile.present (fs.processed.rows ++ processed)).rows = _
    split
    case isTrue h =>
      rw [List.isEmpty_iff] at h
      rw [h]
      exact (List.append_eq_nil.mp h).1
    case isFalse h => rfl

/-- Witness for C7: committing remaining [rA] and newly processed [rB]
over a processed table already holding [rC]. -/
theorem claim_C7_witness :
    (update_keywords_csv [rA] [rB] ⟨TFile.absent, TFile.present [rC]⟩).pending
      = TFile.present [rA] ∧
    (update_keywords_csv [rA] [rB] ⟨TFile.absent, TFile.present [rC]⟩).processed.rows
      = (TFile.present [rC]).rows ++ [rB] :=
  ⟨(claim_C7 [rA] [rB] ⟨TFile.absent, TFile.present [rC]⟩ (by decide)).1 (by decide),
   (claim_C7 [rA] [rB] ⟨TFile.absent, TFile.present [rC]⟩ (by decide)).2.2⟩

/-- C10: when a run processes no records and the processed table is
absent or empty beforehand, the ledger commit leaves the processed
table untouched; and in general the processed table is written (as a
present file) exactly when the combined previous-plus-new row list is
non-empty. -/
theorem claim_C10 (remaining newly : List KeywordRecord) (fs : FS)
    (hnew : newly = [])
    (hempty : fs.processed = TFile.absent ∨ fs.processed = TFile.present []) :
    (update_keywords_csv remaining newly fs).processed = fs.processed ∧
    (∀ (n : List KeywordRecord) (g : FS), g.processed.rows ++ n ≠ [] →
      (update_keywords_csv remaining n g).processed
        = TFile.present (g.processed.rows ++ n)) := by
  constructor
  · subst hnew
    rcases hempty with h | h <;>
      simp [update_keywords_csv, h, TFile.rows]
  · intro n g hne
    simp [update_keywords_csv, List.isEmpty_iff, hne]

/-- Witness for C10: committing nothing over an absent processed table
leaves it absent; committing [rA] over it creates the file. -/
theorem claim_C10_witness :
    (update_keywords_csv [rB] [] fsAB).processed = fsAB.processed ∧
    (update_keywords_csv [rB] [rA] fsAB).processed
      = TFile.present (fsAB.processed.rows ++ [rA]) :=
  ⟨(claim_C10 [rB] [] fsAB rfl (Or.inl rfl)).1,
   (claim_C10 [rB] [] fsAB rfl (Or.inl rfl)).2 [rA] fsAB (by decide)⟩

theorem update_csv_pending_rows (remaining processed : List KeywordRecord) (fs : FS) :
    (update_keywords_csv remaining processed fs).pending.rows = remaining := by
  show (updatePendingFile remaining).rows = remaining
  unfold updatePendingFile
  by_cases h : remaining.isEmpty
  · rw [if_pos h]
    rw [List.isEmpty_iff] at h
    rw [h]
    rfl
  · rw [if_neg h]
    rfl

theorem update_csv_processed_rows (remaining processed : List KeywordRecord) (fs : FS) :
    (update_keywords_csv remaining processed fs).processed.rows
      = fs.processed.rows ++ processed := by
  show (if (fs.processed.rows ++ processed).isEmpty then fs.processed
      else TFile.present (fs.processed.rows ++ processed)).rows = _
  split
  case isTrue h =>
    rw [List.isEmpty_iff] at h
    rw [h]
    exact (List.append_eq_nil.mp h).1
  case isFalse h => rfl

theorem processLoop_live_skip (r : KeywordRecord) :
    ∀ pre suf : List (KeywordRecord × Bool),
      processLoop SystemMode.live (pre ++ (r, false) :: suf)
        = processLoop SystemMode.live (pre ++ suf)
  | [], _ => rfl
  | (d, ok) :: pre, suf => by
    simp only [List.cons_append, processLoop, List.append_eq,
      processLoop_live_skip r pre suf]

/-- C8: in LIVE mode a selected record whose assemble/emit attempt
fails contributes nothing to the per-run processed set and the loop
simply continues with the rest of the batch; if no other copy of the
record is in the batch's successes, the record ends up in remaining and
hence in the rewritten pending table. -/
theorem claim_C8 (allKeywords : List KeywordRecord)
    (pre suf : List (KeywordRecord × Bool)) (r : KeywordRecord) (fs : FS) (res : RunOut)
    (hrun : runMain SystemMode.live allKeywords (pre ++ (r, false) :: suf) fs = some res)
    (hpre : r ∉ pre.map Prod.fst) (hsuf : r ∉ suf.map Prod.fst)
    (hmem : r ∈ allKeywords) :
    res.processedBatch = (processLoop SystemMode.live (pre ++ suf)).processedBatch ∧
    r ∉ res.processedBatch ∧
    r ∈ res.remaining ∧
    res.fs.pending = TFile.present res.remaining := by
  obtain ⟨hpb, -, -, hrem, -, hfs⟩ := runMain_eq_some hrun
  rw [processLoop_live_skip] at hpb hrem hfs
  have hnotin : r ∉ (processLoop SystemMode.live (pre ++ suf)).processedBatch := by
    intro hin
    have := (processLoop_fst_sublist SystemMode.live (pre ++ suf)).subset hin
    rw [List.map_append] at this
    rcases List.mem_append.mp this with h | h
    · exact hpre h
    · exact hsuf h
  have hrmem : r ∈ res.remaining := by
    rw [hrem, List.mem_filter]
    exact ⟨hmem, by simpa using hnotin⟩
  refine ⟨by rw [hpb], by rw [hpb]; exact hnotin, hrmem, ?_⟩
  rw [hfs, ← hrem]
  show updatePendingFile res.remaining = _
  unfold updatePendingFile
  rw [if_neg (by simp [List.isEmpty_iff, List.ne_nil_of_mem hrmem])]

/-- Witness for C8: a concrete LIVE run over pending [rA, rB] where rB
succeeds and rA fails; rA stays pending, rB is processed. -/
theorem claim_C8_witness :
    (RunOut.mk [rB] [rB] 1 [rA] true ⟨TFile.present [rA], TFile.present [rB]⟩).processedBatch
      = (processLoop SystemMode.live ([(rB, true)] ++ [])).processedBatch ∧
    rA ∉ (RunOut.mk [rB] [rB] 1 [rA] true
      ⟨TFile.present [rA], TFile.present [rB]⟩).processedBatch ∧
    rA ∈ (RunOut.mk [rB] [rB] 1 [rA] true
      ⟨TFile.present [rA], TFile.present [rB]⟩).remaining ∧
    (RunOut.mk [rB] [rB] 1 [rA] true ⟨TFile.present [rA], TFile.present [rB]⟩).fs.pending
      = TFile.present (RunOut.mk [rB] [rB] 1 [rA] true
          ⟨TFile.present [rA], TFile.present [rB]⟩).remaining :=
  claim_C8 [rA, rB] [(rB, true)] [] rA fsAB
    (RunOut.mk [rB] [rB] 1 [rA] true ⟨TFile.present [rA], TFile.present [rB]⟩)
    (by decide) (by decide) (by decide) (by decide)

theorem length_filter_mem_split (l pB : List KeywordRecord) :
    l.length = (l.filter (fun k => decide (k ∉ pB))).length
      + (l.filter (fun k => decide (k ∈ pB))).length := by
  induction l with
  | nil => rfl
  | cons a l ih =>
    by_cases h : a ∈ pB <;> simp [List.filter_cons, h, ih] <;> omega

theorem subperm_filter_mem {pB l : List KeywordRecord} (h : List.Subperm pB l) :
    List.Subperm pB (l.filter (fun k => decide (k ∈ pB))) := by
  rw [List.subperm_ext_iff] at h ⊢
  intro x hx
  rw [List.count_filter (by simp [hx])]
  exact h x hx

theorem subperm_snoc_of_count_lt {pB l : List KeywordRecord} {r : KeywordRecord}
    (h : List.Subperm pB l) (hlt : List.count r pB < List.count r l) :
    List.Subperm (pB ++ [r]) l := by
  rw [List.subperm_ext_iff] at h ⊢
  intro x hx
  rw [List.count_append]
  by_cases hxr : x = r
  · subst hxr
    rw [List.count_singleton_self]
    omega
  · have h0 : List.count x [r] = 0 := List.count_eq_zero.mpr (by simp [hxr])
    rw [h0, Nat.add_zero]
    rcases List.mem_append.mp hx with h1 | h1
    · exact h x h1
    · exact absurd (by simpa using h1) hxr

theorem remaining_processed_length_lt {l pB : List KeywordRecord} {r : KeywordRecord}
    (hsub : List.Subperm pB l) (hmem : r ∈ pB)
    (hlt : List.count r pB < List.count r l) :
    (l.filter (fun k => decide (k ∉ pB))).length + pB.length < l.length := by
  have h1 := length_filter_mem_split l pB
  have h2 : List.Subperm (pB ++ [r]) (l.filter (fun k => decide (k ∈ pB))) := by
    refine subperm_snoc_of_count_lt (subperm_filter_mem hsub) ?_
    rw [List.count_filter (by simp [hmem])]
    exact hlt
  have h3 := h2.length_le
  rw [List.length_append, List.length_singleton] at h3
  omega

/-- Counterexample to C3 as stated: pending holds two value-equal
copies of rA, both are selected and both succeed; the remaining list
drops both copies but the processed table gains both, so the total row
count across the two ledgers stays 2 and does not decrease. -/
theorem claim_C3_counterexample :
    (runMain SystemMode.live [rA, rA] [(rA, true), (rA, true)] fsAA).map
        (fun res => res.processedBatch) = some [rA, rA] ∧
    (runMain SystemMode.live [rA, rA] [(rA, true), (rA, true)] fsAA).map
        (fun res => res.fs.pending.rows.length + res.fs.processed.rows.length)
      = some 2 ∧
    fsAA.pending.rows.length + fsAA.processed.rows.length = 2 ∧
    ¬ (2 < 2) := by
  decide

/-- C3 amended: if the pending list holds at least two value-equal
copies of a record, at least one copy is processed this run and at
least one copy is not, then remaining excludes every copy, the
processed table gains exactly the per-run processed set, and the total
row count across the two ledger files strictly decreases.  (When every
copy is processed the total merely fails to increase, as the
counterexample shows.) -/
theorem claim_C3_amended (allKeywords : List KeywordRecord)
    (batch : List (KeywordRecord × Bool)) (fs : FS) (res : RunOut) (r : KeywordRecord)
    (hsub : List.Subperm (batch.map Prod.fst) allKeywords)
    (hpend : fs.pending = TFile.present allKeywords)
    (hrun : runMain SystemMode.live allKeywords batch fs = some res)
    (hn : 2 ≤ List.count r allKeywords)
    (hsel : 1 ≤ List.count r res.processedBatch)
    (hnotall : List.count r res.processedBatch < List.count r allKeywords) :
    List.count r res.remaining = 0 ∧
    res.fs.processed.rows = fs.processed.rows ++ res.processedBatch ∧
    res.fs.pending.rows.length + res.fs.processed.rows.length
      < fs.pending.rows.length + fs.processed.rows.length := by
  obtain ⟨hpb, -, -, hrem, -, hfs⟩ := runMain_eq_some hrun
  rw [hpb] at hsel hnotall
  have hpBsub : List.Subperm (processLoop SystemMode.live batch).processedBatch allKeywords :=
    (processLoop_fst_sublist SystemMode.live batch).subperm.trans hsub
  have hrpB : r ∈ (processLoop SystemMode.live batch).processedBatch :=
    List.count_pos_iff.mp (by omega)
  refine ⟨?_, ?_, ?_⟩
  · rw [hrem]
    refine List.count_eq_zero.mpr ?_
    intro hmem2
    have := (List.mem_filter.mp hmem2).2
    simp at this
    exact this hrpB
  · rw [hfs, hpb]
    exact update_csv_processed_rows _ _ fs
  · rw [hfs, update_csv_pending_rows, update_csv_processed_rows, hpend]
    show (List.filter _ allKeywords).length + (fs.processed.rows ++ _).length
      < allKeywords.length + fs.processed.rows.length
    rw [List.length_append]
    have := remaining_processed_length_lt hpBsub hrpB hnotall
    omega

/-- Witness for the amended C3: pending [rA, rA], only the first copy
selected and processed; the total ledger row count drops from 2 to 1. -/
theorem claim_C3_amended_witness :
    List.count rA (RunOut.mk [rA] [rA] 1 [] true
      ⟨TFile.absent, TFile.present [rA]⟩).remaining = 0 ∧
    (RunOut.mk [rA] [rA] 1 [] true
      ⟨TFile.absent, TFile.present [rA]⟩).fs.processed.rows
      = fsAA.processed.rows ++ (RunOut.mk [rA] [rA] 1 [] true
          ⟨TFile.absent, TFile.present [rA]⟩).processedBatch ∧
    (RunOut.mk [rA] [rA] 1 [] true
        ⟨TFile.absent, TFile.present [rA]⟩).fs.pending.rows.length +
      (RunOut.mk [rA] [rA] 1 [] true
        ⟨TFile.absent, TFile.present [rA]⟩).fs.processed.rows.length
      < fsAA.pending.rows.length + fsAA.processed.rows.length :=
  claim_C3_amended [rA, rA] [(rA, true)] fsAA
    (RunOut.mk [rA] [rA] 1 [] true ⟨TFile.absent, TFile.present [rA]⟩) rA
    (by decide) (by decide) (by decide) (by decide) (by decide) (by decide)

theorem filterMap_rowToRecord_length (rows : List CsvRow) :
    (rows.filterMap rowToRecord).length
      = rows.countP (fun row => row.keyword.isSome && row.title.isSome) := by
  induction rows with
  | nil => rfl
  | cons row rest ih =>
    rcases row with ⟨k, t⟩
    cases k <;> cases t <;>
      simp [List.filterMap_cons, List.countP_cons, rowToRecord, ih]

/-- C4: load_keywords returns the empty sequence when the pending file
is absent or empty, keeps exactly the rows carrying both the keyword
and the title column, and every returned record originates from a row
with both fields present. -/
theorem claim_C4 (rows : List CsvRow) (n : Nat) :
    load_keywords PendingSrc.absent = [] ∧
    load_keywords (PendingSrc.file 0 rows) = [] ∧
    (load_keywords (PendingSrc.file (n + 1) rows)).length
      = rows.countP (fun row => row.keyword.isSome && row.title.isSome) ∧
    ∀ kr ∈ load_keywords (PendingSrc.file (n + 1) rows),
      ∃ row ∈ rows, row.keyword = some kr.keyword ∧ row.title = some kr.title := by
  refine ⟨rfl, rfl, filterMap_rowToRecord_length rows, ?_⟩
  intro kr hkr
  have h := List.mem_filterMap.mp hkr
  obtain ⟨row, hrow, hconv⟩ := h
  refine ⟨row, hrow, ?_⟩
  rcases row with ⟨k, t⟩
  cases k with
  | none => exact absurd hconv (by simp [rowToRecord])
  | some k =>
    cases t with
    | none => exact absurd hconv (by simp [rowToRecord])
    | some t =>
      simp only [rowToRecord] at hconv
      obtain rfl := (Option.some.inj hconv).symm
      exact ⟨rfl, rfl⟩

/-- Witness for C4: a two-row table where the second row is missing the
keyword column and is dropped. -/
theorem claim_C4_witness :
    load_keywords PendingSrc.absent = [] ∧
    (load_keywords (PendingSrc.file 1 [⟨some "k1", some "t1"⟩, ⟨none, some "t2"⟩])).length
      = [(⟨some "k1", some "t1"⟩ : CsvRow), ⟨none, some "t2"⟩].countP
          (fun row => row.keyword.isSome && row.title.isSome) ∧
    (∃ row ∈ [(⟨some "k1", some "t1"⟩ : CsvRow), ⟨none, some "t2"⟩],
      row.keyword = some (KeywordRecord.mk "k1" "t1").keyword ∧
      row.title = some (KeywordRecord.mk "k1" "t1").title) := by
  have h := claim_C4 [⟨some "k1", some "t1"⟩, ⟨none, some "t2"⟩] 0
  exact ⟨h.1, h.2.2.1, h.2.2.2 ⟨"k1", "t1"⟩ (by decide)⟩

theorem isPrefixOf_iff : ∀ l₁ l₂ : Str, l₁.isPrefixOf l₂ = true ↔ ∃ t, l₁ ++ t = l₂
  | [], l₂ => by simp [List.isPrefixOf]
  | a :: as, [] => by simp [List.isPrefixOf]
  | a :: as, b :: bs => by
    simp only [List.isPrefixOf, Bool.and_eq_true, beq_iff_eq, List.cons_append,
      List.cons.injEq]
    rw [isPrefixOf_iff as bs]
    constructor
    · rintro ⟨rfl, t, ht⟩
      exact ⟨t, rfl, ht⟩
    · rintro ⟨t, rfl, ht⟩
      exact ⟨rfl, t, ht⟩

theorem containsStrB_iff (pat : Str) :
    ∀ s : Str, containsStrB pat s = true ↔ ∃ u v, u ++ pat ++ v = s
  | [] => by
    simp only [containsStrB, List.isEmpty_iff]
    constructor
    · rintro rfl
      exact ⟨[], [], rfl⟩
    · rintro ⟨u, v, h⟩
      rcases List.append_eq_nil.mp h with ⟨h1, h2⟩
      exact (List.append_eq_nil.mp h1).2
  | c :: rest => by
    simp only [containsStrB, Bool.or_eq_true]
    rw [isPrefixOf_iff, containsStrB_iff pat rest]
    constructor
    · rintro (⟨t, ht⟩ | ⟨u, v, h⟩)
      · exact ⟨[], t, by simpa using ht⟩
      · exact ⟨c :: u, v, by simp only [List.cons_append]; rw [h]⟩
    · rintro ⟨u, v, h⟩
      cases u with
      | nil => exact Or.inl ⟨v, by simpa using h⟩
      | cons x u =>
        simp only [List.cons_append, List.cons.injEq] at h
        exact Or.inr ⟨u, v, h.2⟩

theorem containsStrB_pyReplace (pat rep : Str) (hne : pat ≠ []) :
    ∀ s : Str, containsStrB pat s = true → containsStrB rep (pyReplace s pat rep) = true
  | [] => by
    intro h
    simp [containsStrB, List.isEmpty_iff, hne] at h
  | c :: rest => by
    intro h
    rw [pyReplace_cons]
    by_cases hpre : pat.isPrefixOf (c :: rest) = true
    · rw [if_pos ⟨hne, hpre⟩]
      exact (containsStrB_iff rep _).mpr ⟨[], _, rfl⟩
    · rw [if_neg (fun hh => hpre hh.2)]
      have h2 : containsStrB pat rest = true := by
        simp only [containsStrB, Bool.or_eq_true] at h
        rcases h with h | h
        · exact absurd h hpre
        · exact h
      have hrec := containsStrB_pyReplace pat rep hne rest h2
      simp only [containsStrB, Bool.or_eq_true]
      exact Or.inr hrec

theorem pyReplace_of_not_contains (pat rep : Str) :
    ∀ s : Str, containsStrB pat s = false → pyReplace s pat rep = s
  | [] => fun _ => rfl
  | c :: rest => by
    intro h
    have h1 : pat.isPrefixOf (c :: rest) = false ∧ containsStrB pat rest = false := by
      simpa [containsStrB] using h
    rw [pyReplace_cons, if_neg (fun hh => by rw [h1.1] at hh; exact absurd hh.2 (by simp))]
    rw [pyReplace_of_not_contains pat rep rest h1.2]

/-- Counterexample to C5 as stated: with the missing-cta-file
placeholder fragment (which lacks the [CTA_LINK] token) and a non-null
affiliate tag, the substituted cta text contains no affiliate-link
directive at all, so tag presence does not imply directive presence. -/
theorem claim_C5_counterexample :
    (some (mkAffiliateKey 123)).isSome = true ∧
    containsStrB ctaLinkToken placeholderBlock = false ∧
    ctaSection placeholderBlock (some (mkAffiliateKey 123)) ("ai".toList)
      = "## Conclusion: Final Thoughts and Next Steps\n\n".toList ++ placeholderBlock ∧
    containsStrB ("affiliate_link".toList)
      (ctaSection placeholderBlock (some (mkAffiliateKey 123)) ("ai".toList)) = false ∧
    containsStrB ctaFallback (ctaSection placeholderBlock none ("ai".toList)) = false := by
  decide

/-- C5 amended: for every cta fragment containing the [CTA_LINK]
token, a non-null affiliate tag yields a cta text containing the full
affiliate-link directive, and a null tag yields one containing the
generic fallback phrase; a fragment without the token — in particular
the placeholder installed when the cta block file is missing — passes
through unchanged, so neither phrase appears and the claimed two-way
correspondence fails for it. -/
theorem claim_C5_amended (fragment : Str) (n : Nat)
    (htok : containsStrB ctaLinkToken fragment = true) :
    containsStrB (ctaDirective (mkAffiliateKey n))
      (ctaText fragment (some (mkAffiliateKey n))) = true ∧
    containsStrB ctaFallback (ctaText fragment none) = true ∧
    (ctaText placeholderBlock (some (mkAffiliateKey n)) = placeholderBlock ∧
     ctaText placeholderBlock none = placeholderBlock) := by
  refine ⟨?_, ?_, ?_, ?_⟩
  · exact containsStrB_pyReplace _ _ (by decide) fragment htok
  · exact containsStrB_pyReplace _ _ (by decide) fragment htok
  · exact pyReplace_of_not_contains _ _ _ (by decide)
  · exact pyReplace_of_not_contains _ _ _ (by decide)

/-- Witness for the amended C5 at a concrete fragment carrying the
token. -/
theorem claim_C5_amended_witness :
    containsStrB (ctaDirective (mkAffiliateKey 500))
      (ctaText ("Start now: [CTA_LINK] and enjoy.".toList)
        (some (mkAffiliateKey 500))) = true ∧
    containsStrB ctaFallback (ctaText ("Start now: [CTA_LINK] and enjoy.".toList) none)
      = true ∧
    ctaText placeholderBlock none = placeholderBlock := by
  have h := claim_C5_amended ("Start now: [CTA_LINK] and enjoy.".toList) 500 (by decide)
  exact ⟨h.1, h.2.1, h.2.2.2⟩

/-- C9: the chosen section topics are distinct elements of the fixed
four-element topic set, there are 3 or 4 of them, and each chosen topic
renders as its fragment — drawn from its fixed corresponding block
category — under the heading derived from the label by replacing
hyphens with spaces and title-casing. -/
theorem claim_C9 (selectedH2 : List Str) (keyword : Str)
    (blocks : String → List Str) (pickBody : String → Str)
    (hsub : List.Subperm selectedH2 H2_SECTIONS)
    (hlen : selectedH2.length = 3 ∨ selectedH2.length = 4)
    (hpick : ∀ key, pickBody key ∈ blocks key) :
    selectedH2.Nodup ∧
    (3 ≤ selectedH2.length ∧ selectedH2.length ≤ 4) ∧
    ∀ h2 ∈ selectedH2,
      h2 ∈ H2_SECTIONS ∧
      sectionBlockKey h2 = specTopicCategory h2 ∧
      pickBody (sectionBlockKey h2) ∈ blocks (specTopicCategory h2) ∧
      bodySection keyword pickBody h2
        = "## ".toList ++ specTopicHeading h2 ++ "\n\n".toList
          ++ pyReplace (pickBody (specTopicCategory h2)) kwToken keyword := by
  refine ⟨?_, by rcases hlen with h | h <;> omega, ?_⟩
  · obtain ⟨l, hperm, hsl⟩ := hsub
    have hnd : l.Nodup := (by decide : H2_SECTIONS.Nodup).sublist hsl
    exact hperm.nodup_iff.mp hnd
  · intro h2 hmem
    have hmem4 : h2 ∈ H2_SECTIONS := hsub.subset hmem
    refine ⟨hmem4, ?_⟩
    simp only [H2_SECTIONS, List.mem_cons, List.not_mem_nil, or_false] at hmem4
    rcases hmem4 with rfl | rfl | rfl | rfl
    · exact ⟨rfl, hpick _, rfl⟩
    · exact ⟨rfl, hpick _, rfl⟩
    · exact ⟨rfl, hpick _, rfl⟩
    · exact ⟨rfl, hpick _, rfl⟩

/-- Witness for C9: the three-topic selection, instantiated at the
Key-Challenges topic. -/
theorem claim_C9_witness :
    ([("Benefits-and-Advantages".toList : Str), "Key-Challenges".toList,
      "Practical-Steps-to-Implement".toList]).Nodup ∧
    sectionBlockKey ("Key-Challenges".toList)
      = specTopicCategory ("Key-Challenges".toList) ∧
    wPick (sectionBlockKey ("Key-Challenges".toList))
      ∈ wBlocks (specTopicCategory ("Key-Challenges".toList)) ∧
    bodySection ("ai".toList) wPick ("Key-Challenges".toList)
      = "## ".toList ++ specTopicHeading ("Key-Challenges".toList) ++ "\n\n".toList
        ++ pyReplace (wPick (specTopicCategory ("Key-Challenges".toList)))
            kwToken ("ai".toList) := by
  have h := claim_C9
    ["Benefits-and-Advantages".toList, "Key-Challenges".toList,
     "Practical-Steps-to-Implement".toList]
    ("ai".toList) wBlocks wPick (by decide) (Or.inl (by decide))
    (fun _ => List.Mem.head _)
  have h2 := h.2.2 ("Key-Challenges".toList) (by decide)
  exact ⟨h.1, h2.2.1, h2.2.2.1, h2.2.2.2⟩
